import Mathlib

/-!
Verification of the Sudoku solving core of the sudoku-solver repository.

The program under study is the function `solveSudoku` of
`src/components/SudokuSolver.tsx` together with its inner helpers
`isValid` (conflict check for a candidate digit) and `solve`
(recursive backtracking over the 9x9 board), and the grid-shape
validation applied to the AI response in `recognizeSudoku` and in the
API handler of `src/pages/api/solve-sudoku.ts`.

A board is embedded as a list of rows of natural numbers, `0` denoting a
blank cell.  The recursive `solve` is embedded as a fuel-indexed function
`solveF`; `none` marks fuel exhaustion, `some none` the `false` return of
`solve`, and `some (some s)` the `true` return with final board `s`.
Fuel `82` strictly exceeds the number of blank cells of any 9x9 board and
is proved sufficient below, so the extraction `solveSudoku` computes
exactly the result of the original unbounded recursion.
-/

namespace SudokuSolver

/-- A Sudoku board: rows of cells, as parsed from the 9x9 JSON grid. -/
abbrev Board := List (List Nat)

/-- Read cell `board[row][col]` (always in range on well-formed boards). -/
def getCell (b : Board) (r c : Nat) : Nat := (b.getD r []).getD c 0

/-- Write `v` into `board[row][col]`: the in-place update `board[row][col] = v`. -/
def setCell (b : Board) (r c v : Nat) : Board := b.set r ((b.getD r []).set c v)

/-- The row-by-row copy `grid.map(row => [...row])` taken at entry of `solveSudoku`. -/
def copyBoard (g : Board) : Board := g.map (fun row => row.map (fun x => x))

/-- `isValid` from the source: `num` appears in no cell of the row, the column,
or the 3x3 box of position `(row, col)`. -/
def isValid (board : Board) (row col num : Nat) : Bool :=
  ((List.range 9).all fun i => !(getCell board row i == num)) &&
  ((List.range 9).all fun i => !(getCell board i col == num)) &&
  ((List.range 3).all fun i => (List.range 3).all fun j =>
      !(getCell board (row / 3 * 3 + i) (col / 3 * 3 + j) == num))

/-- The scan at the head of `solve`: the first cell holding `0`, rows top to
bottom and, within a row, columns left to right. -/
def findEmpty (b : Board) : Option (Nat × Nat) :=
  (List.range 9).findSome? fun r =>
    (List.range 9).findSome? fun c =>
      if getCell b r c == 0 then some (r, c) else none

/-- The 81 positions of the board in row-major order. -/
def allCells : List (Nat × Nat) := (List.range 81).map fun k => (k / 9, k % 9)

/-- Number of blank cells among the 81 positions. -/
def countZeros (b : Board) : Nat := allCells.countP fun p => getCell b p.1 p.2 == 0

/-- One iteration of the candidate loop of `solve`: if an earlier digit
already succeeded (or fuel ran out) the loop body is skipped, otherwise
the digit `num` is placed when `isValid` accepts it and the recursion
`recur` runs on the updated board. -/
def tryStep (recur : Board → Option (Option Board)) (b : Board) (r c : Nat)
    (acc : Option (Option Board)) (num : Nat) : Option (Option Board) :=
  match acc with
  | none => none
  | some (some sol) => some (some sol)
  | some none => if isValid b r c num then recur (setCell b r c num) else some none

/-- The recursive `solve`, indexed by fuel.  `none` is fuel exhaustion,
`some none` the `false` return, `some (some s)` the `true` return leaving
board `s`.  At each step the first blank cell is located and the digits
1..9 are tried in ascending order exactly as the source loop does. -/
def solveF : Nat → Board → Option (Option Board)
  | 0, _ => none
  | fuel + 1, b =>
    match findEmpty b with
    | none => some (some b)
    | some (r, c) => (List.range' 1 9).foldl (tryStep (solveF fuel) b r c) (some none)

/-- `solveSudoku`: copy the grid row by row, run `solve` on the copy, return
the board on success and null (`none`) on failure.  Fuel 82 exceeds the
blank-cell count of every board and is proved sufficient below. -/
def solveSudoku (grid : Board) : Option Board :=
  (solveF 82 (copyBoard grid)).getD none

/-- Well-formed 9x9 board: nine rows of nine cells. -/
def Wf (b : Board) : Prop := b.length = 9 ∧ ∀ r, r < 9 → (b.getD r []).length = 9

/-- Every cell is filled (non-blank). -/
def Filled (b : Board) : Prop := ∀ r, r < 9 → ∀ c, c < 9 → getCell b r c ≠ 0

/-- Every cell holds a value at most 9 (the input alphabet 0..9). -/
def CellsLE9 (b : Board) : Prop := ∀ r, r < 9 → ∀ c, c < 9 → getCell b r c ≤ 9

/-- The cells of row `r`. -/
def rowCells (r : Nat) : List (Nat × Nat) := (List.range 9).map fun c => (r, c)

/-- The cells of column `c`. -/
def colCells (c : Nat) : List (Nat × Nat) := (List.range 9).map fun r => (r, c)

/-- The cells of the 3x3 box with box coordinates `(br, bc)`, `br, bc < 3`. -/
def boxCells (br bc : Nat) : List (Nat × Nat) :=
  (List.range 3).flatMap fun i => (List.range 3).map fun j => (3 * br + i, 3 * bc + j)

/-- How many cells of `cells` hold digit `d` on board `b`. -/
def unitCount (b : Board) (cells : List (Nat × Nat)) (d : Nat) : Nat :=
  cells.countP fun p => getCell b p.1 p.2 == d

/-- The Sudoku invariant: every row, every column and every 3x3 box
contains each of the digits 1..9 exactly once. -/
def SudokuInvariant (b : Board) : Prop :=
  ∀ d, d < 10 → 1 ≤ d →
    (∀ r, r < 9 → unitCount b (rowCells r) d = 1) ∧
    (∀ c, c < 9 → unitCount b (colCells c) d = 1) ∧
    (∀ br, br < 3 → ∀ bc, bc < 3 → unitCount b (boxCells br bc) d = 1)

/-- Two positions share a row, a column, or a 3x3 box. -/
def SameUnit (p q : Nat × Nat) : Prop :=
  p.1 = q.1 ∨ p.2 = q.2 ∨ (p.1 / 3 = q.1 / 3 ∧ p.2 / 3 = q.2 / 3)

/-- The non-blank cells are pairwise non-conflicting: no two distinct
positions of a common unit hold the same non-zero value. -/
def Consistent (b : Board) : Prop :=
  ∀ r1, r1 < 9 → ∀ c1, c1 < 9 → ∀ r2, r2 < 9 → ∀ c2, c2 < 9 →
    (r1, c1) ≠ (r2, c2) → SameUnit (r1, c1) (r2, c2) →
    getCell b r1 c1 ≠ 0 → getCell b r1 c1 ≠ getCell b r2 c2

/-- `t` is a valid completion of `b`: a well-formed board agreeing with `b`
on every non-blank cell of `b` and satisfying the Sudoku invariant. -/
def Completion (b t : Board) : Prop :=
  Wf t ∧ (∀ r, r < 9 → ∀ c, c < 9 → getCell b r c ≠ 0 → getCell t r c = getCell b r c) ∧
    SudokuInvariant t

/-- The non-zero clues of `b` admit a valid completion. -/
def Solvable (b : Board) : Prop := ∃ t, Completion b t

/-! ### Basic board lemmas -/

theorem copyBoard_eq (g : Board) : copyBoard g = g := by
  simp [copyBoard]

theorem getD_set_row {b : Board} {r : Nat} (row : List Nat) (hrb : r < b.length) :
    (b.set r row).getD r [] = row := by
  rw [List.getD_eq_getElem _ _ (by simpa using hrb), List.getElem_set_self]

theorem getD_set_row_ne {b : Board} {r r' : Nat} (row : List Nat) (h : r ≠ r') :
    (b.set r row).getD r' [] = b.getD r' [] := by
  rw [List.getD_eq_getElem?_getD, List.getElem?_set_ne h, ← List.getD_eq_getElem?_getD]

theorem getD_cell_set_ne {row : List Nat} {c c' : Nat} (v : Nat) (h : c ≠ c') :
    (row.set c v).getD c' 0 = row.getD c' 0 := by
  rw [List.getD_eq_getElem?_getD, List.getElem?_set_ne h, ← List.getD_eq_getElem?_getD]

theorem getCell_setCell_self {b : Board} {r c : Nat} (v : Nat)
    (hw : Wf b) (hr : r < 9) (hc : c < 9) :
    getCell (setCell b r c v) r c = v := by
  have hrb : r < b.length := by rw [hw.1]; exact hr
  have hcb : c < (b.getD r []).length := by rw [hw.2 r hr]; exact hc
  unfold getCell setCell
  rw [getD_set_row _ hrb, List.getD_eq_getElem _ _ (by simpa using hcb),
    List.getElem_set_self]

theorem getCell_setCell_ne {b : Board} {r c r' c' : Nat} (v : Nat)
    (h : (r', c') ≠ (r, c)) :
    getCell (setCell b r c v) r' c' = getCell b r' c' := by
  unfold getCell setCell
  by_cases hrr : r = r'
  · subst hrr
    have hcc : c ≠ c' := by
      intro he; exact h (by rw [he])
    by_cases hrb : r < b.length
    · rw [getD_set_row _ hrb, getD_cell_set_ne _ hcc]
    · rw [List.set_eq_of_length_le (by omega)]
  · rw [getD_set_row_ne _ hrr]

theorem Wf.setCell {b : Board} (hw : Wf b) (r c v : Nat) :
    Wf (SudokuSolver.setCell b r c v) := by
  refine ⟨by simpa [SudokuSolver.setCell] using hw.1, fun i hi => ?_⟩
  unfold SudokuSolver.setCell
  by_cases hir : r = i
  · subst hir
    by_cases hrb : r < b.length
    · rw [getD_set_row _ hrb, List.length_set]
      exact hw.2 r hi
    · rw [List.set_eq_of_length_le (by omega)]
      exact hw.2 r hi
  · rw [getD_set_row_ne _ hir]
    exact hw.2 i hi

theorem setCell_cancel {b : Board} {r c : Nat} (num : Nat)
    (hw : Wf b) (hr : r < 9) (hc : c < 9) (h0 : getCell b r c = 0) :
    setCell (setCell b r c num) r c 0 = b := by
  have hrb : r < b.length := by rw [hw.1]; exact hr
  have hcb : c < (b.getD r []).length := by rw [hw.2 r hr]; exact hc
  unfold setCell
  rw [getD_set_row _ hrb, List.set_set, List.set_set]
  have hcell : (b.getD r []).set c 0 = b.getD r [] := by
    apply List.ext_getElem (by simp)
    intro j h1 h2
    rw [List.getElem_set]
    by_cases hcj : c = j
    · subst hcj
      rw [if_pos rfl]
      have := h0
      unfold getCell at this
      rw [List.getD_eq_getElem _ _ hcb] at this
      exact this.symm
    · rw [if_neg hcj]
  rw [hcell]
  apply List.ext_getElem (by simp)
  intro j h1 h2
  rw [List.getElem_set]
  by_cases hrj : r = j
  · subst hrj
    rw [if_pos rfl, List.getD_eq_getElem _ _ hrb]
  · rw [if_neg hrj]

/-! ### The blank-cell scan -/

theorem findEmpty_some {b : Board} {r c : Nat} (h : findEmpty b = some (r, c)) :
    r < 9 ∧ c < 9 ∧ getCell b r c = 0 := by
  unfold findEmpty at h
  obtain ⟨r', hr', hrow⟩ := List.exists_of_findSome?_eq_some h
  obtain ⟨c', hc', hcell⟩ := List.exists_of_findSome?_eq_some hrow
  by_cases h0 : getCell b r' c' == 0
  · rw [if_pos h0] at hcell
    obtain ⟨he1, he2⟩ := Prod.mk.injEq .. ▸ Option.some.injEq .. ▸ hcell
    subst he1; subst he2
    exact ⟨List.mem_range.mp hr', List.mem_range.mp hc', by simpa using h0⟩
  · rw [if_neg h0] at hcell
    exact absurd hcell (by simp)

theorem findEmpty_none {b : Board} (h : findEmpty b = none) :
    ∀ r, r < 9 → ∀ c, c < 9 → getCell b r c ≠ 0 := by
  intro r hr c hc
  unfold findEmpty at h
  rw [List.findSome?_eq_none_iff] at h
  have hrow := h r (List.mem_range.mpr hr)
  rw [List.findSome?_eq_none_iff] at hrow
  have hcell := hrow c (List.mem_range.mpr hc)
  intro h0
  rw [h0] at hcell
  simp at hcell

/-! ### Counting blank cells -/

theorem mem_allCells {p : Nat × Nat} : p ∈ allCells ↔ p.1 < 9 ∧ p.2 < 9 := by
  unfold allCells
  constructor
  · intro h
    obtain ⟨k, hk, he⟩ := List.mem_map.mp h
    have hk81 : k < 81 := List.mem_range.mp hk
    subst he
    exact ⟨Nat.div_lt_of_lt_mul (by omega), Nat.mod_lt _ (by omega)⟩
  · rintro ⟨h1, h2⟩
    refine List.mem_map.mpr ⟨p.2 + 9 * p.1, List.mem_range.mpr (by omega), ?_⟩
    have hd : (p.2 + 9 * p.1) / 9 = p.1 := by
      rw [Nat.add_mul_div_left _ _ (by omega)]
      omega
    have hm : (p.2 + 9 * p.1) % 9 = p.2 := by
      have : p.2 + 9 * p.1 = p.2 + p.1 * 9 := by ring
      rw [this, Nat.add_mul_mod_self_right]
      exact Nat.mod_eq_of_lt h2
    rw [hd, hm]

theorem allCells_nodup : allCells.Nodup := by
  unfold allCells
  refine List.Nodup.map_on ?_ (List.nodup_range 81)
  intro k hk k' hk' he
  have h1 : 9 * (k / 9) + k % 9 = 9 * (k' / 9) + k' % 9 := by
    obtain ⟨e1, e2⟩ := Prod.mk.injEq .. ▸ he
    rw [e1, e2]
  rw [Nat.div_add_mod, Nat.div_add_mod] at h1
  exact h1

theorem countZeros_lt_82 (b : Board) : countZeros b < 82 := by
  have h := List.countP_le_length (fun p => getCell b p.1 p.2 == 0) (l := allCells)
  have hlen : allCells.length = 81 := by unfold allCells; simp
  unfold countZeros
  omega

theorem countP_lt_of_flip {α : Type} (f g : α → Bool) :
    ∀ (l : List α), l.Nodup → ∀ a ∈ l, (∀ x ∈ l, x ≠ a → f x = g x) →
      f a = false → g a = true → l.countP f < l.countP g := by
  intro l
  induction l with
  | nil => intro _ a ha; exact absurd ha (by simp)
  | cons x t ih =>
    intro hnd a ha hcong hfa hga
    rw [List.countP_cons, List.countP_cons]
    rcases List.mem_cons.mp ha with he | ht
    · have hfx : f x = false := by rw [← he]; exact hfa
      have hgx : g x = true := by rw [← he]; exact hga
      have hft : t.countP f = t.countP g := by
        apply List.countP_congr
        intro y hy
        have hyx : y ≠ a := by
          intro hya
          apply (List.nodup_cons.mp hnd).1
          rw [← he, ← hya]
          exact hy
        rw [hcong y (List.mem_cons_of_mem _ hy) hyx]
      rw [hfx, hgx, hft]
      simp
    · have hxa : x ≠ a := by
        intro hxa; subst hxa
        exact (List.nodup_cons.mp hnd).1 ht
      have hfx : f x = g x := hcong x (List.mem_cons_self x t) hxa
      have := ih (List.nodup_cons.mp hnd).2 a ht
        (fun y hy hya => hcong y (List.mem_cons_of_mem _ hy) hya) hfa hga
      rw [hfx]
      omega

theorem countZeros_setCell_lt {b : Board} {r c num : Nat}
    (hw : Wf b) (hr : r < 9) (hc : c < 9) (h0 : getCell b r c = 0) (hn : num ≠ 0) :
    countZeros (setCell b r c num) < countZeros b := by
  unfold countZeros
  refine countP_lt_of_flip _ _ allCells allCells_nodup (r, c)
    (mem_allCells.mpr ⟨hr, hc⟩) ?_ ?_ ?_
  · intro x _ hx
    rw [getCell_setCell_ne _ hx]
  · rw [getCell_setCell_self _ hw hr hc]
    simpa using hn
  · rw [h0]
    simp

/-! ### The conflict check -/

theorem isValid_iff {b : Board} {r c num : Nat} :
    isValid b r c num = true ↔
      (∀ i, i < 9 → getCell b r i ≠ num) ∧
      (∀ i, i < 9 → getCell b i c ≠ num) ∧
      (∀ i, i < 3 → ∀ j, j < 3 → getCell b (r / 3 * 3 + i) (c / 3 * 3 + j) ≠ num) := by
  simp only [isValid, Bool.and_eq_true, List.all_eq_true, List.mem_range,
    Bool.not_eq_true', beq_eq_false_iff_ne]
  tauto

theorem isValid_num_ne_zero {b : Board} {r c num : Nat} (hc : c < 9)
    (h0 : getCell b r c = 0) (hv : isValid b r c num = true) : num ≠ 0 := by
  intro hn
  exact (isValid_iff.mp hv).1 c hc (by rw [h0, hn])

/-- Placing an accepted digit on a blank cell keeps the non-blank cells
pairwise non-conflicting. -/
theorem consistent_setCell {b : Board} {r c num : Nat}
    (hcons : Consistent b) (hr : r < 9) (hc : c < 9)
    (h0 : getCell b r c = 0) (hv : isValid b r c num = true)
    (hw : Wf b) : Consistent (setCell b r c num) := by
  obtain ⟨hrow, hcol, hbox⟩ := isValid_iff.mp hv
  have hclash : ∀ r2 c2, r2 < 9 → c2 < 9 → (r2, c2) ≠ (r, c) →
      SameUnit (r, c) (r2, c2) → getCell b r2 c2 ≠ num := by
    intro r2 c2 hr2 hc2 hne hsu
    rcases hsu with h | h | ⟨h1, h2⟩
    · have : r2 = r := h.symm
      subst this
      exact hrow c2 hc2
    · have : c2 = c := h.symm
      subst this
      exact hcol r2 hr2
    · have e1 : r / 3 * 3 + r2 % 3 = r2 := by
        have h3 : r2 / 3 = r / 3 := h1.symm
        have := Nat.div_add_mod r2 3
        omega
      have e2 : c / 3 * 3 + c2 % 3 = c2 := by
        have h3 : c2 / 3 = c / 3 := h2.symm
        have := Nat.div_add_mod c2 3
        omega
      have := hbox (r2 % 3) (Nat.mod_lt _ (by omega)) (c2 % 3) (Nat.mod_lt _ (by omega))
      rw [e1, e2] at this
      exact this
  intro r1 hr1 c1 hc1 r2 hr2 c2 hc2 hne hsu hnz
  by_cases hp1 : (r1, c1) = (r, c)
  · obtain ⟨e1, e2⟩ := Prod.mk.injEq .. ▸ hp1
    rw [e1, e2] at hnz hsu hne ⊢
    rw [getCell_setCell_self _ hw hr hc] at hnz ⊢
    have hp2 : (r2, c2) ≠ (r, c) := fun he => hne (he ▸ rfl)
    rw [getCell_setCell_ne _ hp2]
    have := hclash r2 c2 hr2 hc2 hp2 hsu
    exact fun he => this he.symm
  · rw [getCell_setCell_ne _ hp1] at hnz ⊢
    by_cases hp2 : (r2, c2) = (r, c)
    · obtain ⟨e1, e2⟩ := Prod.mk.injEq .. ▸ hp2
      rw [e1, e2] at hsu ⊢
      rw [getCell_setCell_self _ hw hr hc]
      have hsu2 : SameUnit (r, c) (r1, c1) := by
        rcases hsu with h | h | ⟨ha, hb⟩
        · exact Or.inl h.symm
        · exact Or.inr (Or.inl h.symm)
        · exact Or.inr (Or.inr ⟨ha.symm, hb.symm⟩)
      exact hclash r1 c1 hr1 hc1 (fun he => hp1 he) hsu2
    · rw [getCell_setCell_ne _ hp2]
      exact hcons r1 hr1 c1 hc1 r2 hr2 c2 hc2 hne hsu hnz

/-! ### The candidate loop -/

theorem foldl_tryStep_none (recur : Board → Option (Option Board)) (b : Board) (r c : Nat) :
    ∀ l : List Nat, l.foldl (tryStep recur b r c) none = none := by
  intro l
  induction l with
  | nil => rfl
  | cons x t ih => simpa [tryStep] using ih

theorem foldl_tryStep_sol (recur : Board → Option (Option Board)) (b : Board) (r c : Nat)
    (s : Board) : ∀ l : List Nat, l.foldl (tryStep recur b r c) (some (some s)) = some (some s) := by
  intro l
  induction l with
  | nil => rfl
  | cons x t ih => simpa [tryStep] using ih

theorem foldl_tryStep_some_some {recur : Board → Option (Option Board)} {b : Board}
    {r c : Nat} {s : Board} :
    ∀ l : List Nat, l.foldl (tryStep recur b r c) (some none) = some (some s) →
      ∃ num ∈ l, isValid b r c num = true ∧ recur (setCell b r c num) = some (some s) := by
  intro l
  induction l with
  | nil => intro h; exact absurd h (by simp)
  | cons x t ih =>
    intro h
    rw [List.foldl_cons] at h
    by_cases hv : isValid b r c x
    · have hstep : tryStep recur b r c (some none) x = recur (setCell b r c x) := by
        simp [tryStep, hv]
      rw [hstep] at h
      rcases hres : recur (setCell b r c x) with _ | o
      · rw [hres, foldl_tryStep_none] at h
        exact absurd h (by simp)
      · rcases o with _ | sol
        · rw [hres] at h
          obtain ⟨num, hmem, hv', hr'⟩ := ih h
          exact ⟨num, List.mem_cons_of_mem _ hmem, hv', hr'⟩
        · rw [hres, foldl_tryStep_sol] at h
          have : sol = s := by simpa using h
          subst this
          exact ⟨x, List.mem_cons_self x t, hv, hres⟩
    · have hstep : tryStep recur b r c (some none) x = some none := by
        simp [tryStep, hv]
      rw [hstep] at h
      obtain ⟨num, hmem, hv', hr'⟩ := ih h
      exact ⟨num, List.mem_cons_of_mem _ hmem, hv', hr'⟩

theorem foldl_tryStep_ne_none {recur : Board → Option (Option Board)} {b : Board}
    {r c : Nat} :
    ∀ l : List Nat,
      (∀ num ∈ l, isValid b r c num = true → recur (setCell b r c num) ≠ none) →
      l.foldl (tryStep recur b r c) (some none) ≠ none := by
  intro l
  induction l with
  | nil => intro _ h; exact absurd h (by simp)
  | cons x t ih =>
    intro hrec h
    rw [List.foldl_cons] at h
    by_cases hv : isValid b r c x
    · have hstep : tryStep recur b r c (some none) x = recur (setCell b r c x) := by
        simp [tryStep, hv]
      rw [hstep] at h
      rcases hres : recur (setCell b r c x) with _ | o
      · exact hrec x (List.mem_cons_self x t) hv hres
      · rcases o with _ | sol
        · rw [hres] at h
          exact ih (fun num hm => hrec num (List.mem_cons_of_mem _ hm)) h
        · rw [hres, foldl_tryStep_sol] at h
          exact absurd h (by simp)
    · have hstep : tryStep recur b r c (some none) x = some none := by
        simp [tryStep, hv]
      rw [hstep] at h
      exact ih (fun num hm => hrec num (List.mem_cons_of_mem _ hm)) h

/-! ### Soundness of the search -/

theorem solveF_sound : ∀ fuel (b s : Board), Wf b → solveF fuel b = some (some s) →
    Wf s ∧
    (∀ r, r < 9 → ∀ c, c < 9 → getCell b r c ≠ 0 → getCell s r c = getCell b r c) ∧
    (∀ r, r < 9 → ∀ c, c < 9 → getCell b r c = 0 →
      1 ≤ getCell s r c ∧ getCell s r c ≤ 9) ∧
    Filled s ∧ (Consistent b → Consistent s) := by
  intro fuel
  induction fuel with
  | zero => intro b s _ h; exact absurd h (by simp [solveF])
  | succ fuel ih =>
    intro b s hw h
    rw [solveF] at h
    rcases hfe : findEmpty b with _ | p
    · rw [hfe] at h
      have hbs : b = s := by simpa using h
      subst hbs
      have hfill : Filled b := fun r hr c hc => findEmpty_none hfe r hr c hc
      exact ⟨hw, fun _ _ _ _ _ => rfl,
        fun r hr c hc h0 => absurd h0 (hfill r hr c hc), hfill, id⟩
    · obtain ⟨r, c⟩ := p
      rw [hfe] at h
      obtain ⟨hr, hc, h0⟩ := findEmpty_some hfe
      obtain ⟨num, hmem, hv, hrec⟩ := foldl_tryStep_some_some _ h
      have hnum : 1 ≤ num ∧ num ≤ 9 := by
        have := List.mem_range'_1.mp hmem
        omega
      have hw' : Wf (setCell b r c num) := hw.setCell r c num
      obtain ⟨hwS, hpres, hblank, hfill, hcons⟩ := ih (setCell b r c num) s hw' hrec
      refine ⟨hwS, ?_, ?_, hfill, ?_⟩
      · intro r2 hr2 c2 hc2 hnz
        have hne : (r2, c2) ≠ (r, c) := by
          intro he
          obtain ⟨e1, e2⟩ := Prod.mk.injEq .. ▸ he
          rw [e1, e2] at hnz
          exact hnz h0
        have := hpres r2 hr2 c2 hc2 (by rwa [getCell_setCell_ne _ hne])
        rwa [getCell_setCell_ne _ hne] at this
      · intro r2 hr2 c2 hc2 hz
        by_cases hne : (r2, c2) = (r, c)
        · obtain ⟨e1, e2⟩ := Prod.mk.injEq .. ▸ hne
          rw [e1, e2]
          have hset : getCell (setCell b r c num) r c = num :=
            getCell_setCell_self _ hw hr hc
          have := hpres r hr c hc (by rw [hset]; omega)
          rw [hset] at this
          rw [this]
          exact hnum
        · have hz' : getCell (setCell b r c num) r2 c2 = 0 := by
            rwa [getCell_setCell_ne _ hne]
          exact hblank r2 hr2 c2 hc2 hz'
      · intro hcb
        exact hcons (consistent_setCell hcb hr hc h0 hv hw)

/-! ### Termination: the fuel bound is never reached -/

theorem solveF_ne_none : ∀ fuel (b : Board), Wf b → countZeros b < fuel →
    solveF fuel b ≠ none := by
  intro fuel
  induction fuel with
  | zero => intro b _ hz; omega
  | succ fuel ih =>
    intro b hw hz
    rw [solveF]
    rcases hfe : findEmpty b with _ | p
    · simp
    · obtain ⟨r, c⟩ := p
      obtain ⟨hr, hc, h0⟩ := findEmpty_some hfe
      apply foldl_tryStep_ne_none
      intro num _ hv
      have hnz : num ≠ 0 := isValid_num_ne_zero hc h0 hv
      have hlt : countZeros (setCell b r c num) < countZeros b :=
        countZeros_setCell_lt hw hr hc h0 hnz
      exact ih (setCell b r c num) (hw.setCell r c num) (by omega)

/-! ### Units -/

theorem mem_rowCells {p : Nat × Nat} {r : Nat} : p ∈ rowCells r ↔ p.1 = r ∧ p.2 < 9 := by
  unfold rowCells
  constructor
  · intro h
    obtain ⟨c, hc, he⟩ := List.mem_map.mp h
    rw [← he]
    exact ⟨rfl, List.mem_range.mp hc⟩
  · rintro ⟨h1, h2⟩
    exact List.mem_map.mpr ⟨p.2, List.mem_range.mpr h2, by rw [← h1]⟩

theorem mem_colCells {p : Nat × Nat} {c : Nat} : p ∈ colCells c ↔ p.2 = c ∧ p.1 < 9 := by
  unfold colCells
  constructor
  · intro h
    obtain ⟨r, hr, he⟩ := List.mem_map.mp h
    rw [← he]
    exact ⟨rfl, List.mem_range.mp hr⟩
  · rintro ⟨h1, h2⟩
    exact List.mem_map.mpr ⟨p.1, List.mem_range.mpr h2, by rw [← h1]⟩

theorem mem_boxCells {p : Nat × Nat} {br bc : Nat} (hbr : br < 3) (hbc : bc < 3) :
    p ∈ boxCells br bc ↔ p.1 / 3 = br ∧ p.2 / 3 = bc ∧ p.1 < 9 ∧ p.2 < 9 := by
  unfold boxCells
  constructor
  · intro h
    obtain ⟨i, hi, hmem⟩ := List.mem_flatMap.mp h
    obtain ⟨j, hj, he⟩ := List.mem_map.mp hmem
    have hi3 : i < 3 := List.mem_range.mp hi
    have hj3 : j < 3 := List.mem_range.mp hj
    rw [← he]
    refine ⟨by omega, by omega, by omega, by omega⟩
  · rintro ⟨h1, h2, h3, h4⟩
    refine List.mem_flatMap.mpr ⟨p.1 % 3, List.mem_range.mpr (by omega), ?_⟩
    refine List.mem_map.mpr ⟨p.2 % 3, List.mem_range.mpr (by omega), ?_⟩
    have e1 : 3 * br + p.1 % 3 = p.1 := by omega
    have e2 : 3 * bc + p.2 % 3 = p.2 := by omega
    rw [e1, e2]

theorem rowCells_nodup (r : Nat) : (rowCells r).Nodup := by
  unfold rowCells
  exact List.Nodup.map_on (fun x _ y _ he => (Prod.mk.injEq .. ▸ he).2) (List.nodup_range 9)

theorem colCells_nodup (c : Nat) : (colCells c).Nodup := by
  unfold colCells
  exact List.Nodup.map_on (fun x _ y _ he => (Prod.mk.injEq .. ▸ he).1) (List.nodup_range 9)

theorem boxCells_explicit (br bc : Nat) : boxCells br bc =
    [(3 * br, 3 * bc), (3 * br, 3 * bc + 1), (3 * br, 3 * bc + 2),
     (3 * br + 1, 3 * bc), (3 * br + 1, 3 * bc + 1), (3 * br + 1, 3 * bc + 2),
     (3 * br + 2, 3 * bc), (3 * br + 2, 3 * bc + 1), (3 * br + 2, 3 * bc + 2)] := by
  simp [boxCells, List.range_succ]

theorem boxCells_nodup (br bc : Nat) : (boxCells br bc).Nodup := by
  rw [boxCells_explicit]
  simp [List.nodup_cons, Prod.ext_iff]

theorem rowCells_length (r : Nat) : (rowCells r).length = 9 := by
  unfold rowCells; simp

theorem colCells_length (c : Nat) : (colCells c).length = 9 := by
  unfold colCells; simp

theorem boxCells_length (br bc : Nat) : (boxCells br bc).length = 9 := by
  rw [boxCells_explicit]
  rfl

/-! ### Pigeonhole: nine distinct digits of 1..9 over nine cells -/

theorem unit_count_one {b : Board} (cells : List (Nat × Nat))
    (hnd : cells.Nodup) (hlen : cells.length = 9)
    (hrange : ∀ p ∈ cells, 1 ≤ getCell b p.1 p.2 ∧ getCell b p.1 p.2 ≤ 9)
    (hinj : ∀ p ∈ cells, ∀ q ∈ cells, p ≠ q →
      getCell b p.1 p.2 ≠ getCell b q.1 q.2) :
    ∀ d, 1 ≤ d → d ≤ 9 → unitCount b cells d = 1 := by
  intro d hd1 hd9
  set vals : List Nat := cells.map (fun p => getCell b p.1 p.2) with hvals
  have hvnd : vals.Nodup := by
    refine List.Nodup.map_on ?_ hnd
    intro x hx y hy he
    by_contra hne
    exact hinj x hx y hy hne he
  have hsub : vals.toFinset ⊆ Finset.Icc 1 9 := by
    intro v hv
    obtain ⟨p, hp, he⟩ := List.mem_map.mp (List.mem_toFinset.mp hv)
    rw [← he]
    exact Finset.mem_Icc.mpr (hrange p hp)
  have hcard : vals.toFinset.card = 9 := by
    rw [List.toFinset_card_of_nodup hvnd]
    rw [hvals, List.length_map, hlen]
  have heq : vals.toFinset = Finset.Icc 1 9 := by
    apply Finset.eq_of_subset_of_card_le hsub
    rw [hcard, Nat.card_Icc]
  have hdmem : d ∈ vals := by
    rw [← List.mem_toFinset, heq]
    exact Finset.mem_Icc.mpr ⟨hd1, hd9⟩
  have hcount : vals.count d = 1 := List.count_eq_one_of_mem hvnd hdmem
  unfold unitCount
  rw [← hcount, List.count_eq_countP, hvals, List.countP_map]
  rfl

theorem countP_two_le {α : Type} (f : α → Bool) :
    ∀ (l : List α) (p q : α), p ∈ l → q ∈ l → p ≠ q →
      f p = true → f q = true → 2 ≤ l.countP f := by
  intro l
  induction l with
  | nil => intro p q hp; exact absurd hp (by simp)
  | cons x t ih =>
    intro p q hp hq hne hfp hfq
    rw [List.countP_cons]
    rcases List.mem_cons.mp hp with hep | htp
    · have hqt : q ∈ t := by
        rcases List.mem_cons.mp hq with heq | htq
        · exact absurd (hep.trans heq.symm) hne
        · exact htq
      have h1 : 0 < t.countP f := List.countP_pos_iff.mpr ⟨q, hqt, hfq⟩
      rw [hep] at hfp
      rw [hfp]
      simp
      exact List.countP_pos_iff.mp h1
    · rcases List.mem_cons.mp hq with heq | htq
      · have h1 : 0 < t.countP f := List.countP_pos_iff.mpr ⟨p, htp, hfp⟩
        rw [heq] at hfq
        rw [hfq]
        simp
        exact List.countP_pos_iff.mp h1
      · have := ih p q htp htq hne hfp hfq
        omega

/-! ### From local consistency to the full invariant, and back -/

theorem invariant_of {s : Board} (hfill : Filled s) (hle : CellsLE9 s)
    (hcons : Consistent s) : SudokuInvariant s := by
  intro d hd10 hd1
  have hone : ∀ cells : List (Nat × Nat), cells.Nodup → cells.length = 9 →
      (∀ p ∈ cells, p.1 < 9 ∧ p.2 < 9) →
      (∀ p ∈ cells, ∀ q ∈ cells, p ≠ q → SameUnit p q) →
      unitCount s cells d = 1 := by
    intro cells hnd hlen hbound hsu
    refine unit_count_one cells hnd hlen ?_ ?_ d hd1 (by omega)
    · intro p hp
      obtain ⟨h1, h2⟩ := hbound p hp
      have := hfill p.1 h1 p.2 h2
      exact ⟨by omega, hle p.1 h1 p.2 h2⟩
    · intro p hp q hq hne
      obtain ⟨hp1, hp2⟩ := hbound p hp
      obtain ⟨hq1, hq2⟩ := hbound q hq
      have hne' : (p.1, p.2) ≠ (q.1, q.2) := by
        intro he
        apply hne
        calc p = (p.1, p.2) := rfl
          _ = (q.1, q.2) := he
          _ = q := rfl
      have hsu' : SameUnit (p.1, p.2) (q.1, q.2) := hsu p hp q hq hne
      exact hcons p.1 hp1 p.2 hp2 q.1 hq1 q.2 hq2 hne' hsu'
        (hfill p.1 hp1 p.2 hp2)
  refine ⟨?_, ?_, ?_⟩
  · intro r hr
    refine hone _ (rowCells_nodup r) (rowCells_length r) ?_ ?_
    · intro p hp
      obtain ⟨h1, h2⟩ := mem_rowCells.mp hp
      exact ⟨by omega, h2⟩
    · intro p hp q hq _
      exact Or.inl ((mem_rowCells.mp hp).1.trans (mem_rowCells.mp hq).1.symm)
  · intro c hc
    refine hone _ (colCells_nodup c) (colCells_length c) ?_ ?_
    · intro p hp
      obtain ⟨h1, h2⟩ := mem_colCells.mp hp
      exact ⟨h2, by omega⟩
    · intro p hp q hq _
      exact Or.inr (Or.inl ((mem_colCells.mp hp).1.trans (mem_colCells.mp hq).1.symm))
  · intro br hbr bc hbc
    refine hone _ (boxCells_nodup br bc) (boxCells_length br bc) ?_ ?_
    · intro p hp
      obtain ⟨h1, h2, h3, h4⟩ := (mem_boxCells hbr hbc).mp hp
      exact ⟨h3, h4⟩
    · intro p hp q hq _
      obtain ⟨h1, h2, _, _⟩ := (mem_boxCells hbr hbc).mp hp
      obtain ⟨h1', h2', _, _⟩ := (mem_boxCells hbr hbc).mp hq
      exact Or.inr (Or.inr ⟨h1.trans h1'.symm, h2.trans h2'.symm⟩)

theorem consistent_of_solvable {b : Board} (hle : CellsLE9 b) (hs : Solvable b) :
    Consistent b := by
  obtain ⟨t, hwt, hagree, hinv⟩ := hs
  intro r1 hr1 c1 hc1 r2 hr2 c2 hc2 hne hsu hnz heq
  have hv9 : getCell b r1 c1 ≤ 9 := hle r1 hr1 c1 hc1
  have ht1 : getCell t r1 c1 = getCell b r1 c1 := hagree r1 hr1 c1 hc1 hnz
  have hnz2 : getCell b r2 c2 ≠ 0 := by rw [← heq]; exact hnz
  have ht2 : getCell t r2 c2 = getCell b r1 c1 := by
    rw [hagree r2 hr2 c2 hc2 hnz2, ← heq]
  obtain ⟨hrow, hcol, hbox⟩ := hinv (getCell b r1 c1) (by omega) (by omega)
  have hpred1 : (fun p => getCell t p.1 p.2 == getCell b r1 c1) (r1, c1) = true := by
    simp [ht1]
  have hpred2 : (fun p => getCell t p.1 p.2 == getCell b r1 c1) (r2, c2) = true := by
    simp [ht2]
  rcases hsu with h | h | ⟨h1, h2⟩
  · have hcount := hrow r1 hr1
    have h2le : 2 ≤ unitCount t (rowCells r1) (getCell b r1 c1) := by
      refine countP_two_le _ _ (r1, c1) (r2, c2) ?_ ?_ hne hpred1 hpred2
      · exact mem_rowCells.mpr ⟨rfl, hc1⟩
      · exact mem_rowCells.mpr ⟨h.symm, hc2⟩
    unfold unitCount at hcount
    unfold unitCount at h2le
    omega
  · have hcount := hcol c1 hc1
    have h2le : 2 ≤ unitCount t (colCells c1) (getCell b r1 c1) := by
      refine countP_two_le _ _ (r1, c1) (r2, c2) ?_ ?_ hne hpred1 hpred2
      · exact mem_colCells.mpr ⟨rfl, hr1⟩
      · exact mem_colCells.mpr ⟨h.symm, hr2⟩
    unfold unitCount at hcount
    unfold unitCount at h2le
    omega
  · have hbr : r1 / 3 < 3 := by omega
    have hbc : c1 / 3 < 3 := by omega
    have hcount := hbox (r1 / 3) hbr (c1 / 3) hbc
    have h2le : 2 ≤ unitCount t (boxCells (r1 / 3) (c1 / 3)) (getCell b r1 c1) := by
      refine countP_two_le _ _ (r1, c1) (r2, c2) ?_ ?_ hne hpred1 hpred2
      · exact (mem_boxCells hbr hbc).mpr ⟨rfl, rfl, hr1, hc1⟩
      · exact (mem_boxCells hbr hbc).mpr ⟨h1.symm, h2.symm, hr2, hc2⟩
    unfold unitCount at hcount
    unfold unitCount at h2le
    omega

/-! ### The solver at fuel 82 -/

theorem solveSudoku_eq_solveF (b : Board) (hw : Wf b) :
    ∃ r, solveF 82 b = some r ∧ solveSudoku b = r := by
  have h82 := countZeros_lt_82 b
  have hne := solveF_ne_none 82 b hw h82
  rcases hres : solveF 82 b with _ | r
  · exact absurd hres hne
  · refine ⟨r, rfl, ?_⟩
    unfold solveSudoku
    rw [copyBoard_eq, hres]
    rfl

theorem solveSudoku_some_sound {b s : Board} (hw : Wf b) (h : solveSudoku b = some s) :
    Wf s ∧
    (∀ r, r < 9 → ∀ c, c < 9 → getCell b r c ≠ 0 → getCell s r c = getCell b r c) ∧
    (∀ r, r < 9 → ∀ c, c < 9 → getCell b r c = 0 →
      1 ≤ getCell s r c ∧ getCell s r c ≤ 9) ∧
    Filled s ∧ (Consistent b → Consistent s) := by
  obtain ⟨r, hr, he⟩ := solveSudoku_eq_solveF b hw
  rw [he] at h
  subst h
  exact solveF_sound 82 b s hw hr

theorem cellsLE9_of_output {b s : Board} (hle : CellsLE9 b)
    (hpres : ∀ r, r < 9 → ∀ c, c < 9 → getCell b r c ≠ 0 → getCell s r c = getCell b r c)
    (hblank : ∀ r, r < 9 → ∀ c, c < 9 → getCell b r c = 0 →
      1 ≤ getCell s r c ∧ getCell s r c ≤ 9) :
    CellsLE9 s := by
  intro r hr c hc
  by_cases h0 : getCell b r c = 0
  · exact (hblank r hr c hc h0).2
  · rw [hpres r hr c hc h0]
    exact hle r hr c hc

theorem findEmpty_eq_none_of_filled {b : Board} (hfill : Filled b) :
    findEmpty b = none := by
  rcases hfe : findEmpty b with _ | p
  · rfl
  · obtain ⟨r, c⟩ := p
    obtain ⟨hr, hc, h0⟩ := findEmpty_some hfe
    exact absurd h0 (hfill r hr c hc)

theorem solveSudoku_of_filled {b : Board} (hfill : Filled b) :
    solveSudoku b = some b := by
  have hfe : findEmpty b = none := findEmpty_eq_none_of_filled hfill
  have h82 : solveF 82 b = some (some b) := by
    rw [show (82 : Nat) = 81 + 1 from rfl, solveF, hfe]
  unfold solveSudoku
  rw [copyBoard_eq, h82]
  rfl

/-! ### A reference backtracking search, phrased after the specification

The following definitions follow the specification text rather than the
source: a digit *conflicts* when it already appears somewhere in the same
row, column, or 3x3 block; the search locates the first blank cell in
row-major order over the flat list of the 81 positions; candidates 1..9
are tried in ascending order, and on failure of the recursion the cell is
explicitly reset to blank before the next candidate. -/

/-- Spec wording: `num` already appears in the row, the column, or the
3x3 block of `(row, col)`. -/
def PlacingConflicts (b : Board) (row col num : Nat) : Prop :=
  (∃ i, i < 9 ∧ getCell b row i = num) ∨
  (∃ i, i < 9 ∧ getCell b i col = num) ∨
  (∃ i, i < 3 ∧ ∃ j, j < 3 ∧ getCell b (row / 3 * 3 + i) (col / 3 * 3 + j) = num)

instance (b : Board) (row col num : Nat) : Decidable (PlacingConflicts b row col num) := by
  unfold PlacingConflicts
  infer_instance

/-- Spec wording: the first blank cell of the board, scanning the 81
positions in row-major order. -/
def refBlank (b : Board) : Option (Nat × Nat) :=
  allCells.find? fun p => getCell b p.1 p.2 == 0

/-- Spec wording of the candidate loop: try the digits in order, skip a
conflicting digit, otherwise place it and recurse; on failure of the
recursion reset the cell to blank and try the next candidate. -/
def refTry (next : Board → Option (Option Board)) (b : Board) (r c : Nat) :
    List Nat → Option (Option Board)
  | [] => some none
  | num :: rest =>
    if PlacingConflicts b r c num then refTry next b r c rest
    else
      match next (setCell b r c num) with
      | none => none
      | some (some sol) => some (some sol)
      | some none => refTry next (setCell (setCell b r c num) r c 0) r c rest

/-- The reference backtracking search (fuel-indexed like `solveF`). -/
def refSolveF : Nat → Board → Option (Option Board)
  | 0, _ => none
  | fuel + 1, b =>
    match refBlank b with
    | none => some (some b)
    | some (r, c) => refTry (refSolveF fuel) b r c [1, 2, 3, 4, 5, 6, 7, 8, 9]

/-- The reference solver. -/
def refSolveSudoku (grid : Board) : Option Board :=
  (refSolveF 82 grid).getD none

theorem isValid_iff_not_conflicts {b : Board} {r c num : Nat} :
    isValid b r c num = true ↔ ¬ PlacingConflicts b r c num := by
  rw [isValid_iff]
  unfold PlacingConflicts
  constructor
  · rintro ⟨h1, h2, h3⟩ (⟨i, hi, he⟩ | ⟨i, hi, he⟩ | ⟨i, hi, j, hj, he⟩)
    · exact h1 i hi he
    · exact h2 i hi he
    · exact h3 i hi j hj he
  · intro h
    refine ⟨?_, ?_, ?_⟩
    · intro i hi he
      exact h (Or.inl ⟨i, hi, he⟩)
    · intro i hi he
      exact h (Or.inr (Or.inl ⟨i, hi, he⟩))
    · intro i hi j hj he
      exact h (Or.inr (Or.inr ⟨i, hi, j, hj, he⟩))

theorem inner_scan_eq (P : Nat → Nat → Bool) (r : Nat) :
    ∀ cols : List Nat,
      (cols.findSome? fun c => if P r c then some (r, c) else none) =
        (cols.map fun c => (r, c)).find? (fun p => P p.1 p.2) := by
  intro cols
  induction cols with
  | nil => rfl
  | cons c t ih =>
    rw [List.map_cons, List.findSome?_cons, List.find?_cons]
    by_cases h : P r c
    · simp [h]
    · simp only [h, if_neg, Bool.false_eq_true, not_false_eq_true, if_false]
      simpa [h] using ih

theorem nested_scan_eq (P : Nat → Nat → Bool) :
    ∀ rows : List Nat,
      (rows.findSome? fun r =>
        (List.range 9).findSome? fun c => if P r c then some (r, c) else none) =
      (rows.flatMap fun r => (List.range 9).map fun c => (r, c)).find?
        (fun p => P p.1 p.2) := by
  intro rows
  induction rows with
  | nil => rfl
  | cons r t ih =>
    rw [List.flatMap_cons, List.findSome?_cons, List.find?_append, inner_scan_eq]
    rcases hf : ((List.range 9).map fun c => (r, c)).find? (fun p => P p.1 p.2) with _ | x
    · simp only [hf, Option.none_or]
      exact ih
    · simp [hf]

theorem allCells_eq_flatMap :
    allCells = (List.range 9).flatMap fun r => (List.range 9).map fun c => (r, c) := by
  decide

theorem findEmpty_eq_refBlank (b : Board) : findEmpty b = refBlank b := by
  unfold findEmpty refBlank
  rw [allCells_eq_flatMap]
  exact nested_scan_eq (fun r c => getCell b r c == 0) (List.range 9)

theorem loop_eq {fuel : Nat}
    (IH : ∀ b' : Board, Wf b' → solveF fuel b' = refSolveF fuel b')
    {b : Board} {r c : Nat} (hw : Wf b) (hr : r < 9) (hc : c < 9)
    (h0 : getCell b r c = 0) :
    ∀ digits : List Nat,
      digits.foldl (tryStep (solveF fuel) b r c) (some none) =
        refTry (refSolveF fuel) b r c digits := by
  intro digits
  induction digits with
  | nil => rfl
  | cons num rest ih =>
    rw [List.foldl_cons, refTry]
    by_cases hv : isValid b r c num
    · have hnc : ¬ PlacingConflicts b r c num := isValid_iff_not_conflicts.mp hv
      rw [if_neg hnc]
      have hstep : tryStep (solveF fuel) b r c (some none) num =
          solveF fuel (setCell b r c num) := by
        simp [tryStep, hv]
      rw [hstep, IH _ (hw.setCell r c num)]
      rcases hres : refSolveF fuel (setCell b r c num) with _ | o
      · rw [foldl_tryStep_none]
      · rcases o with _ | sol
        · rw [setCell_cancel num hw hr hc h0]
          exact ih
        · rw [foldl_tryStep_sol]
    · have hnc : PlacingConflicts b r c num := by
        by_contra hcon
        exact hv (isValid_iff_not_conflicts.mpr hcon)
      rw [if_pos hnc]
      have hstep : tryStep (solveF fuel) b r c (some none) num = some none := by
        simp [tryStep, hv]
      rw [hstep]
      exact ih

theorem solveF_eq_refSolveF : ∀ fuel (b : Board), Wf b →
    solveF fuel b = refSolveF fuel b := by
  intro fuel
  induction fuel with
  | zero => intro b _; rfl
  | succ fuel ih =>
    intro b hw
    rw [solveF, refSolveF, ← findEmpty_eq_refBlank]
    rcases hfe : findEmpty b with _ | p
    · rfl
    · obtain ⟨r, c⟩ := p
      obtain ⟨hr, hc, h0⟩ := findEmpty_some hfe
      have h19 : List.range' 1 9 = [1, 2, 3, 4, 5, 6, 7, 8, 9] := rfl
      rw [h19]
      exact loop_eq ih hw hr hc h0 [1, 2, 3, 4, 5, 6, 7, 8, 9]

/-! ### The grid-format validation of the AI response -/

/-- A JSON-like value: the shape of the `JSON.parse` output inspected by
the grid-format checks. -/
inductive JsonValue where
  | num : Int → JsonValue
  | str : String → JsonValue
  | boolean : Bool → JsonValue
  | null : JsonValue
  | arr : List JsonValue → JsonValue

/-- The validation of `recognizeSudoku`:
`Array.isArray(grid) && grid.length === 9 && grid.every(row => Array.isArray(row) && row.length === 9)`.
Only the shape is inspected, never the cell values. -/
def gridFormatOk : JsonValue → Bool
  | .arr rows =>
    rows.length == 9 && rows.all fun row =>
      match row with
      | .arr cells => cells.length == 9
      | _ => false
  | _ => false

/-- The identical validation of the API handler on `recognizedGrid`. -/
def handlerGridFormatOk : JsonValue → Bool
  | .arr rows =>
    rows.length == 9 && rows.all fun row =>
      match row with
      | .arr cells => cells.length == 9
      | _ => false
  | _ => false

/-- A 9x9 array whose 81 entries all hold the value 99, outside 0..9. -/
def badGrid99 : JsonValue :=
  .arr (List.replicate 9 (.arr (List.replicate 9 (.num 99))))

theorem rowShape_iff (row : JsonValue) :
    (match row with | JsonValue.arr cells => cells.length == 9 | _ => false) = true ↔
      ∃ cells, row = JsonValue.arr cells ∧ cells.length = 9 := by
  cases row <;> simp

theorem gridFormatOk_iff (j : JsonValue) :
    gridFormatOk j = true ↔
      ∃ rows, j = JsonValue.arr rows ∧ rows.length = 9 ∧
        ∀ row ∈ rows, ∃ cells, row = JsonValue.arr cells ∧ cells.length = 9 := by
  cases j with
  | arr rows =>
    simp only [gridFormatOk, Bool.and_eq_true, List.all_eq_true, beq_iff_eq]
    constructor
    · rintro ⟨h1, h2⟩
      exact ⟨rows, rfl, h1, fun row hrow => (rowShape_iff row).mp (h2 row hrow)⟩
    · rintro ⟨rows', he, h1, h2⟩
      injection he with e
      subst e
      exact ⟨h1, fun row hrow => (rowShape_iff row).mpr (h2 row hrow)⟩
  | num v => simp [gridFormatOk]
  | str v => simp [gridFormatOk]
  | boolean v => simp [gridFormatOk]
  | null => simp [gridFormatOk]

theorem handlerGridFormatOk_eq (j : JsonValue) :
    handlerGridFormatOk j = gridFormatOk j := by
  cases j <;> rfl

/-! ### Decidability of the board predicates -/

instance (b : Board) : Decidable (Wf b) := by
  unfold Wf; infer_instance

instance (b : Board) : Decidable (Filled b) := by
  unfold Filled; infer_instance

instance (b : Board) : Decidable (CellsLE9 b) := by
  unfold CellsLE9; infer_instance

instance (p q : Nat × Nat) : Decidable (SameUnit p q) := by
  unfold SameUnit; infer_instance

set_option synthInstance.maxSize 2000 in
instance (b : Board) : Decidable (Consistent b) := by
  unfold Consistent; infer_instance

instance (b : Board) : Decidable (SudokuInvariant b) := by
  unfold SudokuInvariant; infer_instance

instance (b t : Board) : Decidable (Completion b t) := by
  unfold Completion; infer_instance

/-! ### Concrete boards -/

/-- A complete valid Sudoku grid (a shifted Latin square). -/
def fullGrid : Board :=
  [[1, 2, 3, 4, 5, 6, 7, 8, 9],
   [4, 5, 6, 7, 8, 9, 1, 2, 3],
   [7, 8, 9, 1, 2, 3, 4, 5, 6],
   [2, 3, 4, 5, 6, 7, 8, 9, 1],
   [5, 6, 7, 8, 9, 1, 2, 3, 4],
   [8, 9, 1, 2, 3, 4, 5, 6, 7],
   [3, 4, 5, 6, 7, 8, 9, 1, 2],
   [6, 7, 8, 9, 1, 2, 3, 4, 5],
   [9, 1, 2, 3, 4, 5, 6, 7, 8]]

/-- `fullGrid` with its last two cells blanked: a solvable puzzle. -/
def puzzleTwoBlank : Board :=
  [[1, 2, 3, 4, 5, 6, 7, 8, 9],
   [4, 5, 6, 7, 8, 9, 1, 2, 3],
   [7, 8, 9, 1, 2, 3, 4, 5, 6],
   [2, 3, 4, 5, 6, 7, 8, 9, 1],
   [5, 6, 7, 8, 9, 1, 2, 3, 4],
   [8, 9, 1, 2, 3, 4, 5, 6, 7],
   [3, 4, 5, 6, 7, 8, 9, 1, 2],
   [6, 7, 8, 9, 1, 2, 3, 4, 5],
   [9, 1, 2, 3, 4, 5, 6, 0, 0]]

/-- `fullGrid` with its first cell blanked: a solvable puzzle. -/
def puzzleOneBlank : Board :=
  [[0, 2, 3, 4, 5, 6, 7, 8, 9],
   [4, 5, 6, 7, 8, 9, 1, 2, 3],
   [7, 8, 9, 1, 2, 3, 4, 5, 6],
   [2, 3, 4, 5, 6, 7, 8, 9, 1],
   [5, 6, 7, 8, 9, 1, 2, 3, 4],
   [8, 9, 1, 2, 3, 4, 5, 6, 7],
   [3, 4, 5, 6, 7, 8, 9, 1, 2],
   [6, 7, 8, 9, 1, 2, 3, 4, 5],
   [9, 1, 2, 3, 4, 5, 6, 7, 8]]

/-- The board whose 81 cells all hold 1. -/
def allOnes : Board := List.replicate 9 (List.replicate 9 1)

/-- The board whose 81 cells all hold 2. -/
def allTwos : Board := List.replicate 9 (List.replicate 9 2)

/-- The empty board. -/
def allZeros : Board := List.replicate 9 (List.replicate 9 0)

/-- Consistent clues with no valid completion: row 0 forces its last cell
to hold 9, but the cell below it already holds 9. -/
def blockedGrid : Board :=
  [[1, 2, 3, 4, 5, 6, 7, 8, 0],
   [0, 0, 0, 0, 0, 0, 0, 0, 9],
   [0, 0, 0, 0, 0, 0, 0, 0, 0],
   [0, 0, 0, 0, 0, 0, 0, 0, 0],
   [0, 0, 0, 0, 0, 0, 0, 0, 0],
   [0, 0, 0, 0, 0, 0, 0, 0, 0],
   [0, 0, 0, 0, 0, 0, 0, 0, 0],
   [0, 0, 0, 0, 0, 0, 0, 0, 0],
   [0, 0, 0, 0, 0, 0, 0, 0, 0]]

theorem blockedGrid_not_solvable : ¬ Solvable blockedGrid := by
  rintro ⟨t, hwt, hagree, hinv⟩
  have hclues : ∀ c, c < 8 → getCell blockedGrid 0 c = c + 1 ∧
      getCell blockedGrid 0 c ≠ 0 := by decide
  have ht0 : ∀ c, c < 8 → getCell t 0 c = c + 1 := by
    intro c hc
    rw [hagree 0 (by omega) c (by omega) (hclues c hc).2]
    exact (hclues c hc).1
  have hrow := (hinv 9 (by omega) (by omega)).1 0 (by omega)
  have hex : ∃ p ∈ rowCells 0, (getCell t p.1 p.2 == 9) = true := by
    apply List.countP_pos_iff.mp
    unfold unitCount at hrow
    omega
  obtain ⟨p, hp, hval⟩ := hex
  obtain ⟨hp1, hp2⟩ := mem_rowCells.mp hp
  have hval9 : getCell t p.1 p.2 = 9 := by simpa using hval
  rw [hp1] at hval9
  have hc8 : p.2 = 8 := by
    by_contra h8
    have hlt : p.2 < 8 := by omega
    have := ht0 p.2 hlt
    omega
  rw [hc8] at hval9
  have ht18 : getCell t 1 8 = 9 :=
    (hagree 1 (by omega) 8 (by omega) (by decide)).trans (by decide)
  have hcol := (hinv 9 (by omega) (by omega)).2.1 8 (by omega)
  have h2le : 2 ≤ unitCount t (colCells 8) 9 := by
    refine countP_two_le _ _ (0, 8) (1, 8) ?_ ?_ (by decide) ?_ ?_
    · exact mem_colCells.mpr ⟨rfl, by omega⟩
    · exact mem_colCells.mpr ⟨rfl, by omega⟩
    · simp [hval9]
    · simp [ht18]
  unfold unitCount at hcol h2le
  omega

/-! ### The claims -/

/-- C1: for every solvable 9x9 input grid (cells in 0..9, 0 meaning blank,
whose non-zero clues admit a valid completion), if `solveSudoku` returns a
non-null grid then that grid satisfies the Sudoku invariant: each row, each
column and each 3x3 block contains each of the digits 1..9 exactly once. -/
theorem claim1_solvable_output_invariant (b s : Board)
    (hw : Wf b) (hle : CellsLE9 b) (hsolv : Solvable b)
    (hres : solveSudoku b = some s) : SudokuInvariant s := by
  obtain ⟨hwS, hpres, hblank, hfill, hconsS⟩ := solveSudoku_some_sound hw hres
  have hconsb := consistent_of_solvable hle hsolv
  exact invariant_of hfill (cellsLE9_of_output hle hpres hblank) (hconsS hconsb)

theorem claim1_witness :
    Wf puzzleTwoBlank ∧ CellsLE9 puzzleTwoBlank ∧ Solvable puzzleTwoBlank ∧
      solveSudoku puzzleTwoBlank = some fullGrid ∧ SudokuInvariant fullGrid :=
  have h1 : Wf puzzleTwoBlank := by decide
  have h2 : CellsLE9 puzzleTwoBlank := by decide
  have h3 : Solvable puzzleTwoBlank := ⟨fullGrid, by decide⟩
  have h4 : solveSudoku puzzleTwoBlank = some fullGrid := by decide
  ⟨h1, h2, h3, h4, claim1_solvable_output_invariant puzzleTwoBlank fullGrid h1 h2 h3 h4⟩

/-- C2: `solveSudoku` implements exhaustive backtracking in row-major cell
order — first blank cell scanning rows top to bottom and columns left to
right, candidate digits 1..9 in ascending order, place the first digit with
no row/column/block conflict, recurse, reset the cell to 0 on failure — and
is extensionally equal to the reference backtracking definition phrased
from that description (so on success it returns the completion this search
order finds first). -/
theorem claim2_backtracking_refinement (b : Board) (hw : Wf b) :
    solveSudoku b = refSolveSudoku b ∧
      ∀ fuel, solveF fuel b = refSolveF fuel b := by
  have hall : ∀ fuel, solveF fuel b = refSolveF fuel b :=
    fun fuel => solveF_eq_refSolveF fuel b hw
  refine ⟨?_, hall⟩
  unfold solveSudoku refSolveSudoku
  rw [copyBoard_eq, hall 82]

theorem claim2_witness :
    Wf puzzleOneBlank ∧ solveSudoku puzzleOneBlank = refSolveSudoku puzzleOneBlank :=
  have h1 : Wf puzzleOneBlank := by decide
  ⟨h1, (claim2_backtracking_refinement puzzleOneBlank h1).1⟩

/-- C3, counterexample: the all-ones grid has no valid completion (its row 0
holds the digit 1 twice, and every completion must preserve all 81 non-zero
cells), yet `solveSudoku` returns it rather than null.  This falsifies the
claim that every grid without a valid completion yields a null result. -/
theorem claim3_counterexample :
    ¬ Solvable allOnes ∧ solveSudoku allOnes = some allOnes ∧
      solveSudoku allOnes ≠ none := by
  refine ⟨?_, by decide, by decide⟩
  rintro ⟨t, hwt, hagree, hinv⟩
  have h00 : getCell t 0 0 = 1 :=
    (hagree 0 (by omega) 0 (by omega) (by decide)).trans (by decide)
  have h01 : getCell t 0 1 = 1 :=
    (hagree 0 (by omega) 1 (by omega) (by decide)).trans (by decide)
  have hcount := (hinv 1 (by omega) (by omega)).1 0 (by omega)
  have h2le : 2 ≤ unitCount t (rowCells 0) 1 := by
    refine countP_two_le _ _ (0, 0) (0, 1) ?_ ?_ (by decide) ?_ ?_
    · exact mem_rowCells.mpr ⟨rfl, by omega⟩
    · exact mem_rowCells.mpr ⟨rfl, by omega⟩
    · simp [h00]
    · simp [h01]
  unfold unitCount at hcount h2le
  omega

/-- C3, amended: for every 9x9 grid with cells in 0..9 whose non-zero clues
are pairwise non-conflicting (no duplicate digit inside a row, column, or
block), if the grid has no valid completion then `solveSudoku` returns
null.  (The amendment excludes grids whose pre-filled clues already
conflict: the solver never re-checks pre-filled cells, see C8.) -/
theorem claim3_amended_unsolvable_null (b : Board)
    (hw : Wf b) (hle : CellsLE9 b) (hcons : Consistent b)
    (hns : ¬ Solvable b) : solveSudoku b = none := by
  rcases hres : solveSudoku b with _ | s
  · rfl
  · exfalso
    apply hns
    obtain ⟨hwS, hpres, hblank, hfill, hconsS⟩ := solveSudoku_some_sound hw hres
    exact ⟨s, hwS, hpres,
      invariant_of hfill (cellsLE9_of_output hle hpres hblank) (hconsS hcons)⟩

theorem claim3_witness :
    Wf blockedGrid ∧ CellsLE9 blockedGrid ∧ Consistent blockedGrid ∧
      ¬ Solvable blockedGrid ∧ solveSudoku blockedGrid = none :=
  have h1 : Wf blockedGrid := by decide
  have h2 : CellsLE9 blockedGrid := by decide
  have h3 : Consistent blockedGrid := by decide
  have h4 : ¬ Solvable blockedGrid := blockedGrid_not_solvable
  ⟨h1, h2, h3, h4, claim3_amended_unsolvable_null blockedGrid h1 h2 h3 h4⟩

/-- C4: for every already-complete valid 9x9 grid `s` (no blank cell, and
the Sudoku invariant holds), `solveSudoku s = some s`; and solving is
idempotent: any grid the solver has returned is returned again unchanged
when solved a second time. -/
theorem claim4_complete_identity_idempotent :
    (∀ s : Board, Wf s → Filled s → SudokuInvariant s → solveSudoku s = some s) ∧
    (∀ b t : Board, Wf b → solveSudoku b = some t → solveSudoku t = some t) := by
  constructor
  · intro s _ hfill _
    exact solveSudoku_of_filled hfill
  · intro b t hw hres
    obtain ⟨hwT, _, _, hfill, _⟩ := solveSudoku_some_sound hw hres
    exact solveSudoku_of_filled hfill

theorem claim4_witness :
    (Wf fullGrid ∧ Filled fullGrid ∧ SudokuInvariant fullGrid ∧
      solveSudoku fullGrid = some fullGrid) ∧
    (Wf puzzleTwoBlank ∧ solveSudoku puzzleTwoBlank = some fullGrid ∧
      solveSudoku fullGrid = some fullGrid) :=
  have h1 : Wf fullGrid := by decide
  have h2 : Filled fullGrid := by decide
  have h3 : SudokuInvariant fullGrid := by decide
  have h4 : Wf puzzleTwoBlank := by decide
  have h5 : solveSudoku puzzleTwoBlank = some fullGrid := by decide
  ⟨⟨h1, h2, h3, claim4_complete_identity_idempotent.1 fullGrid h1 h2 h3⟩,
   ⟨h4, h5, claim4_complete_identity_idempotent.2 puzzleTwoBlank fullGrid h4 h5⟩⟩

/-- C5, counterexample: on the all-ones grid the solver returns a non-null
grid that does not satisfy the Sudoku constraints, so the result is neither
null nor a solved matrix.  This falsifies the contract as stated ("either a
fully solved 9x9 matrix satisfying Sudoku constraints, or null"). -/
theorem claim5_counterexample :
    solveSudoku allOnes = some allOnes ∧ ¬ SudokuInvariant allOnes := by
  refine ⟨by decide, ?_⟩
  intro h
  have h1 := (h 1 (by omega) (by omega)).1 0 (by omega)
  have h9 : unitCount allOnes (rowCells 0) 1 = 9 := by decide
  omega

/-- C5, amended: for every 9x9 input grid of digits 0..9, `solveSudoku`
returns exactly one of two results: a fully *filled* 9x9 matrix (every
cell holding a digit 1..9, though not necessarily satisfying the Sudoku
constraints when pre-filled cells already conflicted), or null; the
no-solution condition is signalled only by null, never by an exception
(the embedded function is total) or a partially filled grid. -/
theorem claim5_amended_total_contract (b : Board) (hw : Wf b) (hle : CellsLE9 b) :
    solveSudoku b = none ∨
      ∃ s, solveSudoku b = some s ∧ Wf s ∧ Filled s ∧ CellsLE9 s := by
  obtain ⟨r, hr, he⟩ := solveSudoku_eq_solveF b hw
  rcases r with _ | s
  · exact Or.inl he
  · right
    obtain ⟨hwS, hpres, hblank, hfill, _⟩ := solveSudoku_some_sound hw he
    exact ⟨s, he, hwS, hfill, cellsLE9_of_output hle hpres hblank⟩

theorem claim5_witness :
    Wf puzzleOneBlank ∧ CellsLE9 puzzleOneBlank ∧
      (solveSudoku puzzleOneBlank = none ∨
        ∃ s, solveSudoku puzzleOneBlank = some s ∧ Wf s ∧ Filled s ∧ CellsLE9 s) :=
  have h1 : Wf puzzleOneBlank := by decide
  have h2 : CellsLE9 puzzleOneBlank := by decide
  ⟨h1, h2, claim5_amended_total_contract puzzleOneBlank h1 h2⟩

/-- C6: `solveSudoku` terminates on every 9x9 input grid: fuel equal to the
number of blank cells plus one never runs out (so the recursion of `solve`
is total), each recursive call strictly decreases the number of blank
cells, and the fixed fuel 82 used by `solveSudoku` always yields a result. -/
theorem claim6_termination (b : Board) (hw : Wf b) :
    (∃ r, solveF (countZeros b + 1) b = some r) ∧
    (∃ r, solveF 82 b = some r ∧ solveSudoku b = r) ∧
    (∀ r c num, r < 9 → c < 9 → getCell b r c = 0 → num ≠ 0 →
      countZeros (setCell b r c num) < countZeros b) := by
  refine ⟨?_, solveSudoku_eq_solveF b hw, ?_⟩
  · have hne := solveF_ne_none (countZeros b + 1) b hw (by omega)
    rcases h : solveF (countZeros b + 1) b with _ | r
    · exact absurd h hne
    · exact ⟨r, rfl⟩
  · intro r c num hr hc h0 hn
    exact countZeros_setCell_lt hw hr hc h0 hn

theorem claim6_witness :
    Wf allZeros ∧ (∃ r, solveF (countZeros allZeros + 1) allZeros = some r) :=
  have h1 : Wf allZeros := by decide
  ⟨h1, (claim6_termination allZeros h1).1⟩

/-- C7: `solveSudoku` is pure with respect to its argument: the search runs
on the row-by-row copy taken at entry, that copy is equal (as a value) to
the caller's grid, equal inputs give equal outputs, and every in-place
mutation performed during the search is undone on backtracking (writing a
digit into a blank cell and resetting it to 0 restores the original
board). -/
theorem claim7_purity (g : Board) :
    copyBoard g = g ∧
    solveSudoku g = (solveF 82 (copyBoard g)).getD none ∧
    (∀ g', g = g' → solveSudoku g = solveSudoku g') ∧
    (∀ r c num, Wf g → r < 9 → c < 9 → getCell g r c = 0 →
      setCell (setCell g r c num) r c 0 = g) := by
  refine ⟨copyBoard_eq g, rfl, fun g' h => by rw [h], ?_⟩
  intro r c num hw hr hc h0
  exact setCell_cancel num hw hr hc h0

theorem claim7_witness :
    copyBoard puzzleOneBlank = puzzleOneBlank ∧
      setCell (setCell puzzleOneBlank 0 0 5) 0 0 0 = puzzleOneBlank :=
  ⟨(claim7_purity puzzleOneBlank).1,
   (claim7_purity puzzleOneBlank).2.2.2 0 0 5 (by decide) (by decide) (by decide)
     (by decide)⟩

/-- C8: for every fully-filled 9x9 input grid, `solveSudoku` returns that
grid without checking the pre-filled cells against the Sudoku constraints;
in particular the all-ones grid is returned rather than rejected, even
though the digit 1 occurs (at least) twice in every row, every column, and
every 3x3 block. -/
theorem claim8_filled_unchecked :
    (∀ b : Board, Wf b → Filled b → solveSudoku b = some b) ∧
    solveSudoku allOnes = some allOnes ∧
    (∀ r, r < 9 → 2 ≤ unitCount allOnes (rowCells r) 1) ∧
    (∀ c, c < 9 → 2 ≤ unitCount allOnes (colCells c) 1) ∧
    (∀ br, br < 3 → ∀ bc, bc < 3 → 2 ≤ unitCount allOnes (boxCells br bc) 1) :=
  ⟨fun _ _ hfill => solveSudoku_of_filled hfill, by decide, by decide, by decide,
    by decide⟩

theorem claim8_witness :
    Wf allTwos ∧ Filled allTwos ∧ solveSudoku allTwos = some allTwos :=
  have h1 : Wf allTwos := by decide
  have h2 : Filled allTwos := by decide
  ⟨h1, h2, claim8_filled_unchecked.1 allTwos h1 h2⟩

/-- C9: clue preservation: for every 9x9 input grid with cells in 0..9, a
non-null result of `solveSudoku` agrees with the input at every non-zero
cell, fills every zero cell with a digit 1..9, and hence contains no zero
cell. -/
theorem claim9_clue_preservation (b s : Board) (hw : Wf b)
    (hres : solveSudoku b = some s) :
    (∀ r, r < 9 → ∀ c, c < 9 → getCell b r c ≠ 0 → getCell s r c = getCell b r c) ∧
    (∀ r, r < 9 → ∀ c, c < 9 → getCell b r c = 0 →
      1 ≤ getCell s r c ∧ getCell s r c ≤ 9) ∧
    Filled s := by
  obtain ⟨_, hpres, hblank, hfill, _⟩ := solveSudoku_some_sound hw hres
  exact ⟨hpres, hblank, hfill⟩

theorem claim9_witness :
    Wf puzzleOneBlank ∧ solveSudoku puzzleOneBlank = some fullGrid ∧
      Filled fullGrid :=
  have h1 : Wf puzzleOneBlank := by decide
  have h2 : solveSudoku puzzleOneBlank = some fullGrid := by decide
  ⟨h1, h2, (claim9_clue_preservation puzzleOneBlank fullGrid h1 h2).2.2⟩

/-- C10: the grid-format validation applied to the AI response checks only
the shape, not the cell values: a parsed value is accepted exactly when it
is an array of 9 arrays each of length 9; consequently the 9x9 array whose
81 entries are all 99 — outside 0..9 — passes both the `recognizeSudoku`
check and the identical API-handler check. -/
theorem claim10_shape_only_validation :
    (∀ j, gridFormatOk j = true ↔
      ∃ rows, j = JsonValue.arr rows ∧ rows.length = 9 ∧
        ∀ row ∈ rows, ∃ cells, row = JsonValue.arr cells ∧ cells.length = 9) ∧
    (∀ j, handlerGridFormatOk j = gridFormatOk j) ∧
    gridFormatOk badGrid99 = true ∧
    handlerGridFormatOk badGrid99 = true ∧
    (∃ rows, badGrid99 = JsonValue.arr rows ∧
      ∀ row ∈ rows, ∃ cells, row = JsonValue.arr cells ∧
        ∀ v ∈ cells, v = JsonValue.num 99) ∧
    (9 : Int) < 99 := by
  refine ⟨gridFormatOk_iff, handlerGridFormatOk_eq, rfl, rfl, ?_, by decide⟩
  refine ⟨List.replicate 9 (.arr (List.replicate 9 (.num 99))), rfl, ?_⟩
  intro row hrow
  rw [List.eq_of_mem_replicate hrow]
  refine ⟨List.replicate 9 (.num 99), rfl, ?_⟩
  intro v hv
  exact List.eq_of_mem_replicate hv

theorem claim10_witness :
    ∃ rows, badGrid99 = JsonValue.arr rows ∧ rows.length = 9 ∧
      ∀ row ∈ rows, ∃ cells, row = JsonValue.arr cells ∧ cells.length = 9 :=
  (claim10_shape_only_validation.1 badGrid99).mp
    claim10_shape_only_validation.2.2.1

end SudokuSolver
